import Mathlib

/-!
Shallow embedding of the yake task runner core (src/yake.rs).

Rust `HashMap<String, V>` values are modelled as association lists
`List (String × V)` whose keys are kept unique by an insert-or-replace
operation (`alInsert`), matching `HashMap::insert` semantics.  Iteration
order of a Rust `HashMap` is unspecified; the claims below only depend on
key membership, lookups and per-target data, never on map iteration order.

Rust panics (`unwrap` / `expect`) are modelled as `Except String` errors
carrying the panic message; the external process-spawning collaborator is
an oracle `spawn : String → Option Int` (`none` = the command could not be
started, `some code` = the command ran and exited with status `code`,
matching `std::process::Command::output`, which only errs when spawning
fails and otherwise reports the exit status, which `yake.rs` ignores).
-/

/-- Defines the different target types (yake.rs `YakeTargetType`). -/
inductive YakeTargetType where
  | group
  | cmd
  deriving DecidableEq, Repr

/-- Meta data for the yake object (yake.rs `YakeMeta`). -/
structure YakeMeta where
  doc : String
  version : String
  deriving DecidableEq, Repr

/-- Meta data for a yake target (yake.rs `YakeTargetMeta`). -/
structure YakeTargetMeta where
  doc : String
  target_type : YakeTargetType
  depends : Option (List String)
  deriving DecidableEq, Repr

/-- A yake target; can have sub-targets (yake.rs `YakeTarget`). -/
inductive YakeTarget where
  | mk (meta : YakeTargetMeta) (targets : Option (List (String × YakeTarget)))
      (env : Option (List String)) (exec : Option (List String))

/-- Accessor for the `meta` field of `YakeTarget`. -/
def YakeTarget.meta : YakeTarget → YakeTargetMeta
  | .mk m _ _ _ => m

/-- Accessor for the `targets` field of `YakeTarget`. -/
def YakeTarget.targets : YakeTarget → Option (List (String × YakeTarget))
  | .mk _ t _ _ => t

/-- Accessor for the `env` field of `YakeTarget`. -/
def YakeTarget.env : YakeTarget → Option (List String)
  | .mk _ _ e _ => e

/-- Accessor for the `exec` field of `YakeTarget`. -/
def YakeTarget.exec : YakeTarget → Option (List String)
  | .mk _ _ _ x => x

/-- The full yaml structure (yake.rs `Yake`).  The fields `fabricated`,
`all_targets` and `dependencies` are the `#[serde(skip)]` caches, which are
empty/false after deserialization and filled in by `fabricate`. -/
structure Yake where
  meta : YakeMeta
  env : Option (List String)
  targets : List (String × YakeTarget)
  fabricated : Bool
  all_targets : List (String × YakeTarget)
  dependencies : List (String × List YakeTarget)

/-- `HashMap::insert`: replace the binding for `k` if present, else add it. -/
def alInsert {α : Type} : List (String × α) → String → α → List (String × α)
  | [], k, v => [(k, v)]
  | (k', v') :: rest, k, v =>
      if k' = k then (k, v) :: rest else (k', v') :: alInsert rest k v

/-- `HashMap::extend`: insert every binding of the second map into the first. -/
def alExtend {α : Type} (m : List (String × α)) (m' : List (String × α)) :
    List (String × α) :=
  m'.foldl (fun acc kv => alInsert acc kv.1 kv.2) m

/-- `HashMap::get`: first binding for the key, if any. -/
def alLookup {α : Type} : List (String × α) → String → Option α
  | [], _ => none
  | (k', v') :: rest, k => if k' = k then some v' else alLookup rest k

/-- The name under which a command child is inserted: `{prefix}.{name}`
when a prefix exists, else the bare name (the first `match prefix` in
`get_sub_targets`). -/
def joinName : Option String → String → String
  | some p, target_name => p ++ "." ++ target_name
  | none, target_name => target_name

/-- The prefix passed when recursing into a non-command child (the second
`match prefix` in `get_sub_targets`). -/
def extendName : Option String → String → Option String
  | some q, target_name => some (q ++ "." ++ target_name)
  | none, _ => none

mutual

/-- yake.rs `YakeTarget::get_sub_targets`: map of subordinate targets under
an optional dotted prefix.  Command-type children are inserted (with the
prefixed name); other children are recursed into with an extended prefix. -/
def YakeTarget.get_sub_targets (t : YakeTarget) (pfx : Option String) :
    List (String × YakeTarget) :=
  match t with
  | .mk _ none _ _ => []
  | .mk _ (some x) _ _ => subTargetsLoop pfx x []

/-- The `for (target_name, target) in x` loop body of `get_sub_targets`,
threading the map being built as `acc`. -/
def subTargetsLoop (pfx : Option String) (x : List (String × YakeTarget))
    (acc : List (String × YakeTarget)) : List (String × YakeTarget) :=
  match x with
  | [] => acc
  | (target_name, target) :: rest =>
      subTargetsLoop pfx rest
        (if target.meta.target_type = .cmd then
          alInsert acc (joinName pfx target_name) target
        else
          alExtend acc (target.get_sub_targets (extendName pfx target_name)))

end

/-- The `for (target_name, target) in &self.targets` loop of
`get_all_targets`, threading the map being built as `acc`. -/
def allTargetsLoop : List (String × YakeTarget) → List (String × YakeTarget) →
    List (String × YakeTarget)
  | [], acc => acc
  | (target_name, target) :: rest, acc =>
      let acc1 := alInsert acc target_name target
      let acc2 :=
        match target.targets with
        | some _ => alExtend acc1 (target.get_sub_targets (some target_name))
        | none => acc1
      allTargetsLoop rest acc2

/-- yake.rs `Yake::get_all_targets`: flattened, normalized map of all target
names.  Every top-level entry is inserted under its bare name (regardless of
variant); entries with sub-targets are additionally flattened with their own
name as prefix. -/
def Yake.get_all_targets (y : Yake) : List (String × YakeTarget) :=
  allTargetsLoop y.targets []

/-- yake.rs `Yake::get_target_names`: names of all command-type entries of
the `all_targets` cache, in iteration order. -/
def namesLoop : List (String × YakeTarget) → List String
  | [] => []
  | (target_name, target) :: rest =>
      if target.meta.target_type = .cmd then target_name :: namesLoop rest
      else namesLoop rest

/-- yake.rs `Yake::get_target_names` (iterates the `all_targets` cache). -/
def Yake.get_target_names (y : Yake) : List String :=
  namesLoop y.all_targets

/-- yake.rs `Yake::has_target_name`: `Ok(())` when the name is among
`get_target_names()`, else `Err` carrying that full name list. -/
def Yake.has_target_name (y : Yake) (target_name : String) :
    Except (List String) Unit :=
  if (y.get_target_names).contains target_name then Except.ok ()
  else Except.error y.get_target_names

/-- yake.rs `Yake::get_target_by_name`: lookup in a freshly recomputed
flattened map (not the cache). -/
def Yake.get_target_by_name (y : Yake) (target_name : String) :
    Option YakeTarget :=
  alLookup y.get_all_targets target_name

/-- One dependency-name resolution loop of `get_all_dependencies` for the
target `target_name`: resolve each declared dependency name via
`get_target_by_name`, in declaration order; a failed lookup is the
`expect` panic with its exact message. -/
def resolveDeps (y : Yake) (target_name : String) :
    List String → Except String (List YakeTarget)
  | [] => Except.ok []
  | dependency_name :: rest =>
      match y.get_target_by_name dependency_name with
      | none =>
          Except.error ("Warning: Unknown dependency: " ++ dependency_name ++
            " in target: " ++ target_name ++ ".")
      | some dep_target =>
          match resolveDeps y target_name rest with
          | Except.error e => Except.error e
          | Except.ok ds => Except.ok (dep_target :: ds)

/-- The `for (target_name, target) in self.get_all_targets()` loop of
`get_all_dependencies`: each target's resolved dependency list is inserted
under its name (initialized empty, then pushed in declaration order, which
is `resolveDeps`). -/
def allDepsLoop (y : Yake) :
    List (String × YakeTarget) → List (String × List YakeTarget) →
    Except String (List (String × List YakeTarget))
  | [], acc => Except.ok acc
  | (target_name, target) :: rest, acc =>
      match resolveDeps y target_name (target.meta.depends.getD []) with
      | Except.error e => Except.error e
      | Except.ok ds => allDepsLoop y rest (alInsert acc target_name ds)

/-- yake.rs `Yake::get_all_dependencies`: normalized, flattened map of all
dependencies of each target name; a missing dependency is the `expect`
panic, which aborts the whole computation. -/
def Yake.get_all_dependencies (y : Yake) :
    Except String (List (String × List YakeTarget)) :=
  allDepsLoop y y.get_all_targets []

/-- yake.rs `Yake::get_dependencies_by_name`:
`self.dependencies.get(target_name).unwrap()`; `none` models the panic. -/
def Yake.get_dependencies_by_name (y : Yake) (target_name : String) :
    Option (List YakeTarget) :=
  alLookup y.dependencies target_name

/-- yake.rs `Yake::fabricate`: fill the `all_targets` and `dependencies`
caches (a no-op when already fabricated); an `expect` panic inside
`get_all_dependencies` aborts fabrication. -/
def Yake.fabricate (y : Yake) : Except String Yake :=
  if y.fabricated then Except.ok y
  else
    match y.get_all_dependencies with
    | Except.error e => Except.error e
    | Except.ok deps =>
        Except.ok { y with
          all_targets := y.get_all_targets
          dependencies := deps
          fabricated := true }

/-- Outcome of `Yake::execute`: the `Ok` message, the `Err` message, or a
panic (an `unwrap`/`expect` abort) with its message. -/
inductive ExecOutcome where
  | ok (msg : String)
  | err (msg : String)
  | panicked (msg : String)
  deriving DecidableEq, Repr

/-- The `for command in commands` loop of the `run_target` closure: each
command is handed to the spawn oracle in order; a command that cannot be
started (`spawn c = none`) is the `expect` panic, stopping the loop.  The
first component is the list of commands handed to the oracle, in order. -/
def runCommands (spawn : String → Option Int) :
    List String → List String × Option String
  | [] => ([], none)
  | c :: cs =>
      match spawn c with
      | none => ([c], some ("failed to execute command \"" ++ c ++ "\""))
      | some _ =>
          let r := runCommands spawn cs
          (c :: r.1, r.2)

/-- The `run_target` closure of `Yake::execute`: run the target's command
list, if any; a target without commands runs nothing. -/
def run_target (spawn : String → Option Int) (t : YakeTarget) :
    List String × Option String :=
  match t.exec with
  | some commands => runCommands spawn commands
  | none => ([], none)

/-- The `for dep in dependencies` loop of `Yake::execute`: run each
dependency in order, stopping at the first panic. -/
def runTargets (spawn : String → Option Int) :
    List YakeTarget → List String × Option String
  | [] => ([], none)
  | t :: ts =>
      let r := run_target spawn t
      match r.2 with
      | some e => (r.1, some e)
      | none =>
          let r2 := runTargets spawn ts
          (r.1 ++ r2.1, r2.2)

/-- yake.rs `Yake::execute`: validate the name, look up the target (in a
recomputed flattened map) and its cached dependency list (both `unwrap`s),
run all dependencies, then the target itself.  Returns the list of commands
handed to the spawn oracle, in order, together with the outcome. -/
def Yake.execute (spawn : String → Option Int) (y : Yake)
    (target_name : String) : List String × ExecOutcome :=
  match y.has_target_name target_name with
  | Except.error _ => ([], .err ("Unknown target: " ++ target_name))
  | Except.ok () =>
      match y.get_target_by_name target_name with
      | none => ([], .panicked "called `Option::unwrap()` on a `None` value")
      | some target =>
          match y.get_dependencies_by_name target_name with
          | none => ([], .panicked "called `Option::unwrap()` on a `None` value")
          | some dependencies =>
              let rdeps := runTargets spawn dependencies
              match rdeps.2 with
              | some e => (rdeps.1, .panicked e)
              | none =>
                  let rown := run_target spawn target
                  match rown.2 with
                  | some e => (rdeps.1 ++ rown.1, .panicked e)
                  | none => (rdeps.1 ++ rown.1, .ok "All cool")

/-- The full command sequence `execute` plans to run for a dependency list
and a target: each dependency's command list in order, then the target's
own command list. -/
def plannedCommands (deps : List YakeTarget) (t : YakeTarget) : List String :=
  (deps.map (fun d => d.exec.getD [])).flatten ++ t.exec.getD []

/-! ### Association-list lemmas -/

theorem alExtend_nil {α : Type} (m : List (String × α)) : alExtend m [] = m := rfl

theorem alExtend_cons {α : Type} (m : List (String × α)) (k : String) (v : α)
    (rest : List (String × α)) :
    alExtend m ((k, v) :: rest) = alExtend (alInsert m k v) rest := rfl

theorem alLookup_alInsert_self {α : Type} (m : List (String × α)) (k : String)
    (v : α) : alLookup (alInsert m k v) k = some v := by
  induction m with
  | nil => simp [alInsert, alLookup]
  | cons hd tl ih =>
      obtain ⟨k', v'⟩ := hd
      by_cases h : k' = k
      · simp [alInsert, h, alLookup]
      · simp [alInsert, h, alLookup, ih]

theorem alLookup_alInsert_ne {α : Type} (m : List (String × α)) (k : String)
    (v : α) (k' : String) (h : k ≠ k') :
    alLookup (alInsert m k v) k' = alLookup m k' := by
  induction m with
  | nil => simp [alInsert, alLookup, h]
  | cons hd tl ih =>
      obtain ⟨k0, v0⟩ := hd
      by_cases h0 : k0 = k
      · subst h0
        simp [alInsert, alLookup, h]
      · simp [alInsert, h0, alLookup, ih]

theorem alLookup_alInsert_isSome {α : Type} (m : List (String × α))
    (k : String) (v : α) (k' : String) (h : (alLookup m k').isSome) :
    (alLookup (alInsert m k v) k').isSome := by
  by_cases hk : k = k'
  · subst hk
    simp [alLookup_alInsert_self]
  · rwa [alLookup_alInsert_ne m k v k' hk]

theorem alLookup_alExtend_isSome {α : Type} (m' m : List (String × α))
    (k : String) (h : (alLookup m k).isSome) :
    (alLookup (alExtend m m') k).isSome := by
  induction m' generalizing m with
  | nil => simpa [alExtend_nil]
  | cons hd tl ih =>
      obtain ⟨k0, v0⟩ := hd
      rw [alExtend_cons]
      exact ih _ (alLookup_alInsert_isSome m k0 v0 k h)

theorem alLookup_isSome_of_mem {α : Type} (m : List (String × α)) (k : String)
    (v : α) (h : (k, v) ∈ m) : (alLookup m k).isSome := by
  induction m with
  | nil => cases h
  | cons hd tl ih =>
      obtain ⟨k0, v0⟩ := hd
      by_cases hk : k0 = k
      · simp [alLookup, hk]
      · have : (k, v) ∈ tl := by
          rcases List.mem_cons.mp h with h1 | h1
          · cases h1; exact absurd rfl hk
          · exact h1
        simp [alLookup, hk, ih this]

theorem mem_alInsert {α : Type} (m : List (String × α)) (k : String) (v : α)
    (k' : String) (v' : α) (h : (k', v') ∈ alInsert m k v) :
    (k' = k ∧ v' = v) ∨ (k', v') ∈ m := by
  induction m with
  | nil =>
      simp [alInsert] at h
      exact Or.inl h
  | cons hd tl ih =>
      obtain ⟨k0, v0⟩ := hd
      by_cases h0 : k0 = k
      · simp [alInsert, h0] at h
        rcases h with h | h
        · exact Or.inl h
        · exact Or.inr (List.mem_cons_of_mem _ h)
      · simp only [alInsert, if_neg h0] at h
        rcases List.mem_cons.mp h with h1 | h1
        · exact Or.inr (by rw [h1]; exact List.mem_cons_self _ _)
        · rcases ih h1 with h2 | h2
          · exact Or.inl h2
          · exact Or.inr (List.mem_cons_of_mem _ h2)

theorem mem_alExtend {α : Type} (m' m : List (String × α)) (k : String) (v : α)
    (h : (k, v) ∈ alExtend m m') : (k, v) ∈ m ∨ (k, v) ∈ m' := by
  induction m' generalizing m with
  | nil => exact Or.inl (by simpa [alExtend_nil] using h)
  | cons hd tl ih =>
      obtain ⟨k0, v0⟩ := hd
      rw [alExtend_cons] at h
      rcases ih _ h with h1 | h1
      · rcases mem_alInsert m k0 v0 k v h1 with h2 | h2
        · exact Or.inr (by rw [h2.1, h2.2]; exact List.mem_cons_self _ _)
        · exact Or.inl h2
      · exact Or.inr (List.mem_cons_of_mem _ h1)

theorem mem_keys_alInsert {α : Type} (m : List (String × α)) (k : String)
    (v : α) (k' : String) :
    k' ∈ (alInsert m k v).map Prod.fst ↔ k' = k ∨ k' ∈ m.map Prod.fst := by
  induction m with
  | nil => simp [alInsert]
  | cons hd tl ih =>
      obtain ⟨k0, v0⟩ := hd
      by_cases h0 : k0 = k
      · subst h0
        simp [alInsert]
      · simp only [alInsert, if_neg h0, List.map_cons, List.mem_cons, ih]
        tauto

theorem nodup_keys_alInsert {α : Type} (m : List (String × α)) (k : String)
    (v : α) (h : (m.map Prod.fst).Nodup) :
    ((alInsert m k v).map Prod.fst).Nodup := by
  induction m with
  | nil => simp [alInsert]
  | cons hd tl ih =>
      obtain ⟨k0, v0⟩ := hd
      simp only [List.map_cons, List.nodup_cons] at h
      by_cases h0 : k0 = k
      · subst h0
        simpa [alInsert] using h
      · simp only [alInsert, if_neg h0, List.map_cons, List.nodup_cons]
        refine ⟨fun hc => ?_, ih h.2⟩
        rcases (mem_keys_alInsert tl k v k0).mp hc with h1 | h1
        · exact h0 h1
        · exact h.1 h1

theorem nodup_keys_alExtend {α : Type} (m' m : List (String × α))
    (h : (m.map Prod.fst).Nodup) : ((alExtend m m').map Prod.fst).Nodup := by
  induction m' generalizing m with
  | nil => simpa [alExtend_nil]
  | cons hd tl ih =>
      obtain ⟨k0, v0⟩ := hd
      rw [alExtend_cons]
      exact ih _ (nodup_keys_alInsert m k0 v0 h)

/-! ### Flattener lemmas -/

theorem nodup_keys_allTargetsLoop (l : List (String × YakeTarget))
    (acc : List (String × YakeTarget)) (h : (acc.map Prod.fst).Nodup) :
    ((allTargetsLoop l acc).map Prod.fst).Nodup := by
  induction l generalizing acc with
  | nil => simpa [allTargetsLoop]
  | cons hd tl ih =>
      obtain ⟨n, t⟩ := hd
      have h1 := nodup_keys_alInsert acc n t h
      cases ht : t.targets with
      | none => exact ih _ (by simpa [allTargetsLoop, ht] using h1)
      | some x =>
          refine ih _ ?_
          simpa [allTargetsLoop, ht] using
            nodup_keys_alExtend (t.get_sub_targets (some n)) (alInsert acc n t) h1

theorem nodup_keys_get_all_targets (y : Yake) :
    ((y.get_all_targets).map Prod.fst).Nodup :=
  nodup_keys_allTargetsLoop y.targets [] (by simp)

theorem alLookup_allTargetsLoop_isSome (l : List (String × YakeTarget))
    (acc : List (String × YakeTarget)) (k : String)
    (h : (alLookup acc k).isSome) :
    (alLookup (allTargetsLoop l acc) k).isSome := by
  induction l generalizing acc with
  | nil => simpa [allTargetsLoop]
  | cons hd tl ih =>
      obtain ⟨n, t⟩ := hd
      have h1 := alLookup_alInsert_isSome acc n t k h
      cases ht : t.targets with
      | none => exact ih _ (by simpa [allTargetsLoop, ht] using h1)
      | some x =>
          refine ih _ ?_
          simpa [allTargetsLoop, ht] using
            alLookup_alExtend_isSome (t.get_sub_targets (some n)) (alInsert acc n t) k h1

theorem alLookup_allTargetsLoop_of_mem (l : List (String × YakeTarget))
    (acc : List (String × YakeTarget)) (n : String) (t : YakeTarget)
    (h : (n, t) ∈ l) : (alLookup (allTargetsLoop l acc) n).isSome := by
  induction l generalizing acc with
  | nil => cases h
  | cons hd tl ih =>
      obtain ⟨n0, t0⟩ := hd
      rcases List.mem_cons.mp h with h1 | h1
      · obtain ⟨hn, hti⟩ := Prod.mk.injEq .. ▸ h1
        subst hn
        have h2 : (alLookup (alInsert acc n t0) n).isSome := by
          simp [alLookup_alInsert_self]
        cases ht : t0.targets with
        | none =>
            exact alLookup_allTargetsLoop_isSome tl _ n
              (by simpa [allTargetsLoop, ht] using h2)
        | some x =>
            refine alLookup_allTargetsLoop_isSome tl _ n ?_
            simpa [allTargetsLoop, ht] using
              alLookup_alExtend_isSome (t0.get_sub_targets (some n)) (alInsert acc n t0) n h2
      · cases ht : t0.targets with
        | none => exact (by simpa [allTargetsLoop, ht] using ih (alInsert acc n0 t0) h1)
        | some x =>
            simpa [allTargetsLoop, ht] using
              ih (alExtend (alInsert acc n0 t0) (t0.get_sub_targets (some n0))) h1

theorem get_target_by_name_isSome_of_mem_targets (y : Yake) (n : String)
    (t : YakeTarget) (h : (n, t) ∈ y.targets) :
    ∃ t2, y.get_target_by_name n = some t2 := by
  have h1 := alLookup_allTargetsLoop_of_mem y.targets [] n t h
  rw [Yake.get_target_by_name]
  exact Option.isSome_iff_exists.mp h1

mutual

theorem get_sub_targets_cmd (t : YakeTarget) (pfx : Option String) (k : String)
    (v : YakeTarget) (h : (k, v) ∈ t.get_sub_targets pfx) :
    v.meta.target_type = .cmd := by
  match t with
  | .mk m none e x => exact absurd h (by simp [YakeTarget.get_sub_targets])
  | .mk m (some l) e x =>
      exact subTargetsLoop_cmd pfx l [] (by simp) k v
        (by simpa [YakeTarget.get_sub_targets] using h)

theorem subTargetsLoop_cmd (pfx : Option String)
    (x : List (String × YakeTarget)) (acc : List (String × YakeTarget))
    (hacc : ∀ k v, (k, v) ∈ acc → YakeTargetMeta.target_type (YakeTarget.meta v) = .cmd)
    (k : String) (v : YakeTarget) (h : (k, v) ∈ subTargetsLoop pfx x acc) :
    v.meta.target_type = .cmd := by
  match x with
  | [] => exact hacc k v (by simpa [subTargetsLoop] using h)
  | (target_name, target) :: rest =>
      by_cases hc : target.meta.target_type = .cmd
      · refine subTargetsLoop_cmd pfx rest _ ?_ k v
          (by simpa [subTargetsLoop, hc] using h)
        intro k2 v2 h2
        rcases mem_alInsert acc _ target k2 v2 h2 with h3 | h3
        · rw [h3.2]; exact hc
        · exact hacc k2 v2 h3
      · refine subTargetsLoop_cmd pfx rest _ ?_ k v
          (by simpa [subTargetsLoop, hc] using h)
        intro k2 v2 h2
        rcases mem_alExtend _ acc k2 v2 h2 with h3 | h3
        · exact hacc k2 v2 h3
        · exact get_sub_targets_cmd target _ k2 v2 h3

end

/-! ### Target-name lemmas -/

/-! ### Target-name lemmas -/

theorem contains_iff_mem_str (l : List String) (a : String) :
    l.contains a = true ↔ a ∈ l := by
  simp [List.contains_iff_exists_mem_beq]

theorem mem_namesLoop (l : List (String × YakeTarget)) (n : String) :
    n ∈ namesLoop l ↔ ∃ t, (n, t) ∈ l ∧ t.meta.target_type = .cmd := by
  induction l with
  | nil => simp [namesLoop]
  | cons hd tl ih =>
      obtain ⟨n0, t0⟩ := hd
      by_cases h0 : t0.meta.target_type = .cmd
      · simp only [namesLoop, if_pos h0, List.mem_cons, ih]
        constructor
        · rintro (h | ⟨t, ht, hc⟩)
          · exact ⟨t0, Or.inl (by rw [h]), h0⟩
          · exact ⟨t, Or.inr ht, hc⟩
        · rintro ⟨t, h | h, hc⟩
          · exact Or.inl (congrArg Prod.fst h)
          · exact Or.inr ⟨t, h, hc⟩
      · simp only [namesLoop, if_neg h0, ih, List.mem_cons]
        constructor
        · rintro ⟨t, ht, hc⟩
          exact ⟨t, Or.inr ht, hc⟩
        · rintro ⟨t, h | h, hc⟩
          · have ht : t = t0 := congrArg Prod.snd h
            exact absurd (ht ▸ hc) h0
          · exact ⟨t, h, hc⟩

theorem has_target_name_ok_iff (y : Yake) (n : String) :
    y.has_target_name n = Except.ok () ↔ n ∈ y.get_target_names := by
  rw [Yake.has_target_name]
  by_cases h : (y.get_target_names).contains n
  · simp only [if_pos h, true_iff]
    exact (contains_iff_mem_str _ n).mp h
  · simp only [if_neg h]
    constructor
    · intro hc; cases hc
    · intro hm; exact absurd ((contains_iff_mem_str _ n).mpr hm) h

theorem has_target_name_error_iff (y : Yake) (n : String) (l : List String) :
    y.has_target_name n = Except.error l ↔
      n ∉ y.get_target_names ∧ l = y.get_target_names := by
  rw [Yake.has_target_name]
  by_cases h : (y.get_target_names).contains n
  · simp only [if_pos h]
    constructor
    · intro hc; cases hc
    · rintro ⟨hn, _⟩; exact absurd ((contains_iff_mem_str _ n).mp h) hn
  · simp only [if_neg h]
    constructor
    · intro hc
      cases hc
      exact ⟨fun hm => h ((contains_iff_mem_str _ n).mpr hm), rfl⟩
    · rintro ⟨_, rfl⟩; rfl

/-! ### Dependency-resolver lemmas -/

theorem resolveDeps_error_shape (y : Yake) (tn : String) (names : List String)
    (e : String) (h : resolveDeps y tn names = Except.error e) :
    ∃ dn, dn ∈ names ∧ y.get_target_by_name dn = none ∧
      e = "Warning: Unknown dependency: " ++ dn ++ " in target: " ++ tn ++ "." := by
  induction names with
  | nil => simp [resolveDeps] at h
  | cons d rest ih =>
      cases hd : y.get_target_by_name d with
      | none =>
          simp only [resolveDeps, hd] at h
          injection h with h1
          exact ⟨d, List.mem_cons_self _ _, hd, h1.symm⟩
      | some dt =>
          simp only [resolveDeps, hd] at h
          cases hr : resolveDeps y tn rest with
          | error e2 =>
              rw [hr] at h
              have h2 : (Except.error e2 : Except String (List YakeTarget)) =
                  Except.error e := h
              injection h2 with h3
              subst h3
              obtain ⟨dn, h4, h5, h6⟩ := ih hr
              exact ⟨dn, List.mem_cons_of_mem _ h4, h5, h6⟩
          | ok ds => rw [hr] at h; cases h

theorem resolveDeps_error_of_missing (y : Yake) (tn : String)
    (names : List String) (dn : String) (hmem : dn ∈ names)
    (hmiss : y.get_target_by_name dn = none) :
    ∃ e, resolveDeps y tn names = Except.error e := by
  induction names with
  | nil => cases hmem
  | cons d rest ih =>
      cases hd : y.get_target_by_name d with
      | none =>
          exact ⟨"Warning: Unknown dependency: " ++ d ++ " in target: " ++ tn ++ ".",
            by simp [resolveDeps, hd]⟩
      | some dt =>
          rcases List.mem_cons.mp hmem with h1 | h1
          · rw [h1] at hmiss; rw [hmiss] at hd; cases hd
          · obtain ⟨e, he⟩ := ih h1
            exact ⟨e, by simp [resolveDeps, hd, he]⟩

theorem resolveDeps_ok_shape (y : Yake) (tn : String) (names : List String)
    (ds : List YakeTarget) (h : resolveDeps y tn names = Except.ok ds) :
    ds.length = names.length ∧
    ∀ i (hi : i < names.length) (hj : i < ds.length),
      y.get_target_by_name (names.get ⟨i, hi⟩) = some (ds.get ⟨i, hj⟩) := by
  induction names generalizing ds with
  | nil =>
      simp only [resolveDeps] at h
      cases h
      exact ⟨rfl, fun i hi => by cases hi⟩
  | cons d rest ih =>
      cases hd : y.get_target_by_name d with
      | none => simp [resolveDeps, hd] at h
      | some dt =>
          simp only [resolveDeps, hd] at h
          cases hr : resolveDeps y tn rest with
          | error e2 => rw [hr] at h; cases h
          | ok ds2 =>
              rw [hr] at h
              have h2 : (Except.ok (dt :: ds2) : Except String (List YakeTarget)) =
                  Except.ok ds := h
              injection h2 with h3
              subst h3
              obtain ⟨hlen, hidx⟩ := ih ds2 hr
              refine ⟨by simpa using hlen, ?_⟩
              intro i hi hj
              cases i with
              | zero => simpa using hd
              | succ i2 =>
                  simpa using hidx i2 (by simpa using hi) (by simpa using hj)

theorem allDepsLoop_error_shape (y : Yake) (l : List (String × YakeTarget))
    (acc : List (String × List YakeTarget)) (e : String)
    (h : allDepsLoop y l acc = Except.error e) :
    ∃ tn t, (tn, t) ∈ l ∧
      resolveDeps y tn (t.meta.depends.getD []) = Except.error e := by
  induction l generalizing acc with
  | nil => simp [allDepsLoop] at h
  | cons hd tl ih =>
      obtain ⟨tn0, t0⟩ := hd
      cases hr : resolveDeps y tn0 (t0.meta.depends.getD []) with
      | error e2 =>
          simp only [allDepsLoop, hr] at h
          have h2 : (Except.error e2 : Except String (List (String × List YakeTarget))) =
              Except.error e := h
          injection h2 with h3
          subst h3
          exact ⟨tn0, t0, List.mem_cons_self _ _, hr⟩
      | ok ds =>
          simp only [allDepsLoop, hr] at h
          obtain ⟨tn, t, h1, h2⟩ := ih _ h
          exact ⟨tn, t, List.mem_cons_of_mem _ h1, h2⟩

theorem allDepsLoop_ok_resolves (y : Yake) (l : List (String × YakeTarget))
    (acc res : List (String × List YakeTarget))
    (h : allDepsLoop y l acc = Except.ok res) (tn : String) (t : YakeTarget)
    (hmem : (tn, t) ∈ l) :
    ∃ ds, resolveDeps y tn (t.meta.depends.getD []) = Except.ok ds := by
  induction l generalizing acc with
  | nil => cases hmem
  | cons hd tl ih =>
      obtain ⟨tn0, t0⟩ := hd
      cases hr : resolveDeps y tn0 (t0.meta.depends.getD []) with
      | error e2 => simp [allDepsLoop, hr] at h
      | ok ds =>
          simp only [allDepsLoop, hr] at h
          rcases List.mem_cons.mp hmem with h1 | h1
          · have hn : tn = tn0 := congrArg Prod.fst h1
            have ht : t = t0 := congrArg Prod.snd h1
            subst hn; subst ht
            exact ⟨ds, hr⟩
          · exact ih _ h h1

theorem allDepsLoop_lookup_of_ok_aux (y : Yake) (l : List (String × YakeTarget))
    (acc res : List (String × List YakeTarget)) (n : String)
    (hnot : n ∉ l.map Prod.fst) (h : allDepsLoop y l acc = Except.ok res) :
    alLookup res n = alLookup acc n := by
  induction l generalizing acc with
  | nil =>
      simp only [allDepsLoop] at h
      injection h with h1
      rw [h1]
  | cons hd tl ih =>
      obtain ⟨tn0, t0⟩ := hd
      simp only [List.map_cons, List.mem_cons] at hnot
      push_neg at hnot
      cases hr : resolveDeps y tn0 (t0.meta.depends.getD []) with
      | error e2 => simp [allDepsLoop, hr] at h
      | ok ds =>
          simp only [allDepsLoop, hr] at h
          rw [ih _ hnot.2 h]
          exact alLookup_alInsert_ne acc tn0 ds n (fun he => hnot.1 he.symm)

theorem allDepsLoop_lookup_of_ok (y : Yake) (l : List (String × YakeTarget))
    (acc res : List (String × List YakeTarget))
    (hnd : (l.map Prod.fst).Nodup) (h : allDepsLoop y l acc = Except.ok res)
    (n : String) (t : YakeTarget) (hmem : (n, t) ∈ l) :
    ∃ ds, alLookup res n = some ds ∧
      resolveDeps y n (t.meta.depends.getD []) = Except.ok ds := by
  induction l generalizing acc with
  | nil => cases hmem
  | cons hd tl ih =>
      obtain ⟨tn0, t0⟩ := hd
      simp only [List.map_cons, List.nodup_cons] at hnd
      cases hr : resolveDeps y tn0 (t0.meta.depends.getD []) with
      | error e2 => simp [allDepsLoop, hr] at h
      | ok ds =>
          simp only [allDepsLoop, hr] at h
          rcases List.mem_cons.mp hmem with h1 | h1
          · have hn : n = tn0 := congrArg Prod.fst h1
            have ht : t = t0 := congrArg Prod.snd h1
            subst hn; subst ht
            refine ⟨ds, ?_, hr⟩
            rw [allDepsLoop_lookup_of_ok_aux y tl _ res n (by
              intro hc
              exact hnd.1 (by simpa using hc)) h]
            exact alLookup_alInsert_self acc n ds
          · exact ih _ hnd.2 h h1

theorem allDepsLoop_lookup_isSome (y : Yake) (l : List (String × YakeTarget))
    (acc res : List (String × List YakeTarget))
    (h : allDepsLoop y l acc = Except.ok res) (n : String)
    (hsome : (alLookup acc n).isSome) : (alLookup res n).isSome := by
  induction l generalizing acc with
  | nil =>
      simp only [allDepsLoop] at h
      injection h with h1
      rw [← h1]
      exact hsome
  | cons hd tl ih =>
      obtain ⟨tn0, t0⟩ := hd
      cases hr : resolveDeps y tn0 (t0.meta.depends.getD []) with
      | error e2 => simp [allDepsLoop, hr] at h
      | ok ds =>
          simp only [allDepsLoop, hr] at h
          exact ih _ h (alLookup_alInsert_isSome acc tn0 ds n hsome)

theorem allDepsLoop_lookup_isSome_of_mem (y : Yake)
    (l : List (String × YakeTarget)) (acc res : List (String × List YakeTarget))
    (h : allDepsLoop y l acc = Except.ok res) (n : String) (t : YakeTarget)
    (hmem : (n, t) ∈ l) : (alLookup res n).isSome := by
  induction l generalizing acc with
  | nil => cases hmem
  | cons hd tl ih =>
      obtain ⟨tn0, t0⟩ := hd
      cases hr : resolveDeps y tn0 (t0.meta.depends.getD []) with
      | error e2 => simp [allDepsLoop, hr] at h
      | ok ds =>
          simp only [allDepsLoop, hr] at h
          rcases List.mem_cons.mp hmem with h1 | h1
          · have hn : n = tn0 := congrArg Prod.fst h1
            subst hn
            exact allDepsLoop_lookup_isSome y tl _ res h n
              (by simp [alLookup_alInsert_self])
          · exact ih _ h h1

/-! ### Execution-engine lemmas -/

theorem runCommands_trace_of_ok (spawn : String → Option Int)
    (cs : List String) (h : (runCommands spawn cs).2 = none) :
    (runCommands spawn cs).1 = cs ∧ ∀ c ∈ cs, spawn c ≠ none := by
  induction cs with
  | nil => exact ⟨rfl, by simp⟩
  | cons c rest ih =>
      cases hc : spawn c with
      | none => simp [runCommands, hc] at h
      | some v =>
          simp only [runCommands, hc] at h ⊢
          obtain ⟨h1, h2⟩ := ih h
          refine ⟨by rw [h1], ?_⟩
          intro d hd
          rcases List.mem_cons.mp hd with h3 | h3
          · rw [h3, hc]; exact fun hx => by cases hx
          · exact h2 d h3

theorem runCommands_cons_some (spawn : String → Option Int) (c : String)
    (v : Int) (cs : List String) (hc : spawn c = some v) :
    runCommands spawn (c :: cs) =
      (c :: (runCommands spawn cs).1, (runCommands spawn cs).2) := by
  simp [runCommands, hc]

theorem runCommands_cons_none (spawn : String → Option Int) (c : String)
    (cs : List String) (hc : spawn c = none) :
    runCommands spawn (c :: cs) =
      ([c], some ("failed to execute command \"" ++ c ++ "\"")) := by
  simp [runCommands, hc]

theorem runCommands_append_ok (spawn : String → Option Int)
    (as bs : List String) (h : (runCommands spawn as).2 = none) :
    runCommands spawn (as ++ bs) =
      ((runCommands spawn as).1 ++ (runCommands spawn bs).1,
        (runCommands spawn bs).2) := by
  induction as with
  | nil => simp [runCommands]
  | cons c rest ih =>
      rw [List.cons_append]
      cases hc : spawn c with
      | none => rw [runCommands_cons_none spawn c rest hc] at h; cases h
      | some v =>
          rw [runCommands_cons_some spawn c v rest hc] at h
          rw [runCommands_cons_some spawn c v (rest ++ bs) hc,
            runCommands_cons_some spawn c v rest hc, ih h]
          simp

theorem runCommands_append_err (spawn : String → Option Int)
    (as bs : List String) (e : String)
    (h : (runCommands spawn as).2 = some e) :
    runCommands spawn (as ++ bs) = runCommands spawn as := by
  induction as with
  | nil => exact Option.noConfusion h
  | cons c rest ih =>
      rw [List.cons_append]
      cases hc : spawn c with
      | none =>
          rw [runCommands_cons_none spawn c (rest ++ bs) hc,
            runCommands_cons_none spawn c rest hc]
      | some v =>
          rw [runCommands_cons_some spawn c v rest hc] at h
          rw [runCommands_cons_some spawn c v (rest ++ bs) hc,
            runCommands_cons_some spawn c v rest hc, ih h]

theorem run_target_eq (spawn : String → Option Int) (t : YakeTarget) :
    run_target spawn t = runCommands spawn (t.exec.getD []) := by
  cases hx : t.exec with
  | none => simp [run_target, hx, runCommands]
  | some commands => simp [run_target, hx]

theorem runTargets_eq (spawn : String → Option Int) (ds : List YakeTarget) :
    runTargets spawn ds =
      runCommands spawn ((ds.map (fun d => d.exec.getD [])).flatten) := by
  induction ds with
  | nil => simp [runTargets, runCommands]
  | cons t rest ih =>
      simp only [List.map_cons, List.flatten_cons]
      cases h2 : (run_target spawn t).2 with
      | some e =>
          have he : (runCommands spawn (t.exec.getD [])).2 = some e := by
            rw [← run_target_eq]; exact h2
          rw [runCommands_append_err spawn _ _ e he, ← run_target_eq]
          simp only [runTargets, h2]
          rw [← h2]
      | none =>
          have he : (runCommands spawn (t.exec.getD [])).2 = none := by
            rw [← run_target_eq]; exact h2
          rw [runCommands_append_ok spawn _ _ he, ← run_target_eq, ← ih]
          simp only [runTargets, h2]

/-- Maps the result of the command loop to the outcome `execute` reports:
a spawn panic is fatal, otherwise `Ok("All cool")`. -/
def outcomeOfRun : Option String → ExecOutcome
  | some e => .panicked e
  | none => .ok "All cool"

theorem execute_eq_runCommands (spawn : String → Option Int) (y : Yake)
    (name : String) (t : YakeTarget) (deps : List YakeTarget)
    (hok : y.has_target_name name = Except.ok ())
    (ht : y.get_target_by_name name = some t)
    (hd : y.get_dependencies_by_name name = some deps) :
    y.execute spawn name =
      ((runCommands spawn (plannedCommands deps t)).1,
        outcomeOfRun (runCommands spawn (plannedCommands deps t)).2) := by
  rw [Yake.execute, hok, ht, hd]
  simp only [plannedCommands]
  cases h2 : (runTargets spawn deps).2 with
  | some e =>
      have he : (runCommands spawn ((deps.map (fun d => d.exec.getD [])).flatten)).2 =
          some e := by rw [← runTargets_eq]; exact h2
      rw [runCommands_append_err spawn _ _ e he, ← runTargets_eq]
      simp only [h2, outcomeOfRun]
  | none =>
      have he : (runCommands spawn ((deps.map (fun d => d.exec.getD [])).flatten)).2 =
          none := by rw [← runTargets_eq]; exact h2
      rw [runCommands_append_ok spawn _ _ he, ← runTargets_eq, ← run_target_eq]
      simp only [h2]
      cases h3 : (run_target spawn t).2 <;> simp [outcomeOfRun, h3]

theorem runCommands_stop (spawn : String → Option Int) (pre : List String)
    (c : String) (post : List String) (hpre : ∀ d ∈ pre, spawn d ≠ none)
    (hc : spawn c = none) :
    runCommands spawn (pre ++ c :: post) =
      (pre ++ [c], some ("failed to execute command \"" ++ c ++ "\"")) := by
  induction pre with
  | nil => simpa using runCommands_cons_none spawn c post hc
  | cons d rest ih =>
      rw [List.cons_append]
      cases hd : spawn d with
      | none => exact absurd hd (hpre d (List.mem_cons_self _ _))
      | some v =>
          rw [runCommands_cons_some spawn d v (rest ++ c :: post) hd,
            ih (fun d2 hd2 => hpre d2 (List.mem_cons_of_mem _ hd2))]
          simp

theorem runCommands_err_shape (spawn : String → Option Int) (cs : List String)
    (e : String) (h : (runCommands spawn cs).2 = some e) :
    ∃ pre c post, cs = pre ++ c :: post ∧
      (runCommands spawn cs).1 = pre ++ [c] ∧
      (∀ d ∈ pre, spawn d ≠ none) ∧ spawn c = none ∧
      e = "failed to execute command \"" ++ c ++ "\"" := by
  induction cs with
  | nil => exact Option.noConfusion h
  | cons c rest ih =>
      cases hc : spawn c with
      | none =>
          refine ⟨[], c, rest, by simp, ?_, by simp, hc, ?_⟩
          · rw [runCommands_cons_none spawn c rest hc]; simp
          · rw [runCommands_cons_none spawn c rest hc] at h
            exact (Option.some.injEq .. ▸ h).symm
      | some v =>
          rw [runCommands_cons_some spawn c v rest hc] at h
          obtain ⟨pre, c2, post, h1, h2, h3, h4, h5⟩ := ih h
          refine ⟨c :: pre, c2, post, by rw [List.cons_append, ← h1], ?_, ?_, h4, h5⟩
          · rw [runCommands_cons_some spawn c v rest hc, h2, List.cons_append]
          · intro d hd
            rcases List.mem_cons.mp hd with h6 | h6
            · rw [h6, hc]; exact fun hx => by cases hx
            · exact h3 d h6

theorem execute_unknown (spawn : String → Option Int) (y : Yake) (n : String)
    (h : n ∉ y.get_target_names) :
    y.execute spawn n = ([], ExecOutcome.err ("Unknown target: " ++ n)) := by
  have he : y.has_target_name n = Except.error y.get_target_names :=
    (has_target_name_error_iff y n _).mpr ⟨h, rfl⟩
  rw [Yake.execute, he]

theorem fabricate_shape (y0 y : Yake) (hnf : y0.fabricated = false)
    (hfab : y0.fabricate = Except.ok y) :
    ∃ deps, y0.get_all_dependencies = Except.ok deps ∧
      y = { y0 with
        all_targets := y0.get_all_targets
        dependencies := deps
        fabricated := true } := by
  rw [Yake.fabricate, hnf] at hfab
  simp only [Bool.false_eq_true, if_false] at hfab
  cases hd : y0.get_all_dependencies with
  | error e => rw [hd] at hfab; cases hfab
  | ok deps =>
      rw [hd] at hfab
      have h2 : (Except.ok { y0 with
          all_targets := y0.get_all_targets
          dependencies := deps
          fabricated := true } : Except String Yake) = Except.ok y := hfab
      injection h2 with h3
      exact ⟨deps, rfl, h3.symm⟩

/-! ### Concrete example definitions (used by witnesses and counterexamples) -/

/-- A spawn oracle under which every command starts and exits with status 0. -/
def spawnAll : String → Option Int := fun _ => some 0

/-- The `clean` leaf of the spec's build/clean scenario. -/
def cleanTarget : YakeTarget := .mk ⟨"", .cmd, none⟩ none none (some ["echo cleaned"])

/-- The `build` leaf of the spec's build/clean scenario (depends on `clean`). -/
def buildTarget : YakeTarget :=
  .mk ⟨"", .cmd, some ["clean"]⟩ none none (some ["echo built"])

/-- The build/clean definition as deserialized (caches empty). -/
def buildYakeRaw : Yake :=
  ⟨⟨"doc", "1.0.0"⟩, none, [("build", buildTarget), ("clean", cleanTarget)],
    false, [], []⟩

/-- The build/clean definition after `fabricate`. -/
def buildYake : Yake :=
  ⟨⟨"doc", "1.0.0"⟩, none, [("build", buildTarget), ("clean", cleanTarget)],
    true, [("build", buildTarget), ("clean", cleanTarget)],
    [("build", [cleanTarget]), ("clean", [])]⟩

/-- First dependency of the two-dependency example. -/
def depOne : YakeTarget := .mk ⟨"", .cmd, none⟩ none none (some ["c1", "c2"])

/-- Second dependency of the two-dependency example. -/
def depTwo : YakeTarget := .mk ⟨"", .cmd, none⟩ none none (some ["c3"])

/-- A target depending on `d1` then `d2`. -/
def topTarget : YakeTarget :=
  .mk ⟨"", .cmd, some ["d1", "d2"]⟩ none none (some ["c4"])

/-- The two-dependency definition after `fabricate`. -/
def topYake : Yake :=
  ⟨⟨"doc", "1.0.0"⟩, none,
    [("d1", depOne), ("d2", depTwo), ("top", topTarget)], true,
    [("d1", depOne), ("d2", depTwo), ("top", topTarget)],
    [("d1", []), ("d2", []), ("top", [depOne, depTwo])]⟩

/-- A target with the two commands `a` and `b`. -/
def abTarget : YakeTarget := .mk ⟨"", .cmd, none⟩ none none (some ["a", "b"])

/-- A fabricated definition with the single target `t` running `a` then `b`. -/
def abYake : Yake :=
  ⟨⟨"doc", "1.0.0"⟩, none, [("t", abTarget)], true, [("t", abTarget)],
    [("t", [])]⟩

/-- A spawn oracle under which command `a` starts and exits with status 1
and every other command exits with status 0. -/
def spawnAexits1 : String → Option Int := fun c => if c = "a" then some 1 else some 0

/-- A spawn oracle under which command `b` cannot be started. -/
def spawnBfails : String → Option Int := fun c => if c = "b" then none else some 0

/-- The `migrate` leaf of the spec's db.migrate scenario. -/
def migrateTarget : YakeTarget :=
  .mk ⟨"", .cmd, none⟩ none none (some ["run migrations"])

/-- The `db` group containing the `migrate` leaf. -/
def dbGroup : YakeTarget :=
  .mk ⟨"", .group, none⟩ (some [("migrate", migrateTarget)]) none none

/-- The db.migrate definition as deserialized (caches empty). -/
def dbYakeRaw : Yake := ⟨⟨"doc", "1.0.0"⟩, none, [("db", dbGroup)], false, [], []⟩

/-- The db.migrate definition after `fabricate`. -/
def dbYake : Yake :=
  ⟨⟨"doc", "1.0.0"⟩, none, [("db", dbGroup)], true,
    [("db", dbGroup), ("db.migrate", migrateTarget)],
    [("db", []), ("db.migrate", [])]⟩

/-- A leaf declaring the missing dependency `nope`. -/
def nopeTarget : YakeTarget := .mk ⟨"", .cmd, some ["nope"]⟩ none none (some ["x"])

/-- A definition whose only target declares the missing dependency `nope`. -/
def nopeYake : Yake :=
  ⟨⟨"doc", "1.0.0"⟩, none, [("leaf", nopeTarget)], false, [], []⟩

/-- A command target named `t1` for the unknown-target counterexample. -/
def t1Target : YakeTarget := .mk ⟨"", .cmd, none⟩ none none (some ["x1"])

/-- A fabricated definition whose only command target is `t1`. -/
def c6YakeA : Yake :=
  ⟨⟨"doc", "1.0.0"⟩, none, [("t1", t1Target)], true, [("t1", t1Target)],
    [("t1", [])]⟩

/-- A command target named `t2` for the unknown-target counterexample. -/
def t2Target : YakeTarget := .mk ⟨"", .cmd, none⟩ none none (some ["x2"])

/-- A fabricated definition whose only command target is `t2`. -/
def c6YakeB : Yake :=
  ⟨⟨"doc", "1.0.0"⟩, none, [("t2", t2Target)], true, [("t2", t2Target)],
    [("t2", [])]⟩

theorem buildYakeRaw_fabricate : buildYakeRaw.fabricate = Except.ok buildYake := rfl

theorem dbYakeRaw_fabricate : dbYakeRaw.fabricate = Except.ok dbYake := rfl

/-! ### Claim C1 -/

/-- Claim C1 (counterexample): under a spawn oracle where command `a` starts
but exits abnormally (status 1, not 0), `execute` still invokes the later
command `b` and reports success.  This contradicts the claim that a command
which "exits abnormally" stops execution immediately (no later command
invoked) and propagates the failure: `Yake::execute` calls
`Command::output()` and ignores the exit status entirely. -/
theorem C1_counterexample :
    spawnAexits1 "a" = some 1 ∧ spawnAexits1 "a" ≠ some 0 ∧
    abYake.execute spawnAexits1 "t" = (["a", "b"], ExecOutcome.ok "All cool") := by
  exact ⟨rfl, by decide, rfl⟩

/-- Claim C1 (amended): for every target resolved to `t` with dependency
list `deps`, the commands `execute` hands to the spawn oracle are always a
prefix of the planned sequence (each dependency's commands in order, then
the target's own); when every planned command can be started, all of them
run, in order, and `execute` succeeds regardless of exit statuses; when a
command cannot be started (spawn failure), execution stops at exactly that
command — all planned commands before it ran, it is the last one invoked,
nothing after it is invoked — and the failure propagates as the `expect`
panic naming the command.  (Amended from the original claim: only a command
that cannot be *started* is fatal; a started command's abnormal exit status
is ignored, per the counterexample.) -/
theorem C1_amended (spawn : String → Option Int) (y : Yake) (name : String)
    (t : YakeTarget) (deps : List YakeTarget)
    (hok : y.has_target_name name = Except.ok ())
    (ht : y.get_target_by_name name = some t)
    (hd : y.get_dependencies_by_name name = some deps) :
    (∃ rest, plannedCommands deps t = (y.execute spawn name).1 ++ rest) ∧
    ((∀ c ∈ plannedCommands deps t, spawn c ≠ none) →
      y.execute spawn name = (plannedCommands deps t, ExecOutcome.ok "All cool")) ∧
    (∀ pre c post, plannedCommands deps t = pre ++ c :: post →
      (∀ d ∈ pre, spawn d ≠ none) → spawn c = none →
      y.execute spawn name = (pre ++ [c],
        ExecOutcome.panicked ("failed to execute command \"" ++ c ++ "\""))) := by
  have hex := execute_eq_runCommands spawn y name t deps hok ht hd
  refine ⟨?_, ?_, ?_⟩
  · cases h2 : (runCommands spawn (plannedCommands deps t)).2 with
    | none =>
        obtain ⟨h3, _⟩ := runCommands_trace_of_ok spawn _ h2
        exact ⟨[], by rw [hex, h3]; simp⟩
    | some e =>
        obtain ⟨pre, c, post, h3, h4, _, _, _⟩ := runCommands_err_shape spawn _ e h2
        refine ⟨post, ?_⟩
        rw [hex, h4, h3]
        simp
  · intro hall
    cases h2 : (runCommands spawn (plannedCommands deps t)).2 with
    | none =>
        obtain ⟨h3, _⟩ := runCommands_trace_of_ok spawn _ h2
        rw [hex, h2, h3, outcomeOfRun]
    | some e =>
        obtain ⟨pre, c, post, h3, _, _, h6, _⟩ := runCommands_err_shape spawn _ e h2
        exact absurd h6 (hall c (by rw [h3]; simp))
  · intro pre c post hplan hpre hc
    have h2 := runCommands_stop spawn pre c post hpre hc
    rw [hex, hplan, h2]
    rfl

/-- Claim C1 (witness): in the two-command target, when command `b` cannot
be started, `execute` runs `a`, stops at `b`, and panics naming `b`. -/
theorem C1_witness :
    abYake.execute spawnBfails "t" = (["a"] ++ ["b"],
      ExecOutcome.panicked ("failed to execute command \"" ++ "b" ++ "\"")) :=
  (C1_amended spawnBfails abYake "t" abTarget [] rfl rfl rfl).2.2 ["a"] "b" []
    rfl (by decide) rfl

/-! ### Claim C2 -/

/-- Claim C2: for every known target resolved to `t` with dependency list
`[d1, d2]`, when every command can be started, `execute` invokes exactly
d1's command list in full and in order, then d2's, then the target's own,
and nothing else (dependencies of dependencies are never consulted: only
the stored one-level dependency list is run). -/
theorem C2 (spawn : String → Option Int) (y : Yake) (name : String)
    (t d1 d2 : YakeTarget)
    (hok : y.has_target_name name = Except.ok ())
    (ht : y.get_target_by_name name = some t)
    (hd : y.get_dependencies_by_name name = some [d1, d2])
    (hs : ∀ c, spawn c ≠ none) :
    y.execute spawn name =
      (d1.exec.getD [] ++ d2.exec.getD [] ++ t.exec.getD [],
        ExecOutcome.ok "All cool") := by
  have hex := execute_eq_runCommands spawn y name t [d1, d2] hok ht hd
  have hplan : plannedCommands [d1, d2] t =
      d1.exec.getD [] ++ d2.exec.getD [] ++ t.exec.getD [] := by
    simp [plannedCommands]
  cases h2 : (runCommands spawn (plannedCommands [d1, d2] t)).2 with
  | none =>
      obtain ⟨h3, _⟩ := runCommands_trace_of_ok spawn _ h2
      rw [hex, h2, h3, hplan]
      rfl
  | some e =>
      obtain ⟨pre, c, post, h3, _, _, h6, _⟩ := runCommands_err_shape spawn _ e h2
      exact absurd h6 (hs c)

/-- Claim C2 (witness): in the two-dependency example, `execute top` runs
`c1 c2` (first dependency), then `c3` (second), then `c4` (own). -/
theorem C2_witness :
    topYake.execute spawnAll "top" =
      (depOne.exec.getD [] ++ depTwo.exec.getD [] ++ topTarget.exec.getD [],
        ExecOutcome.ok "All cool") :=
  C2 spawnAll topYake "top" topTarget depOne depTwo rfl rfl rfl
    (fun _ h => Option.noConfusion h)

/-! ### Claim C3 -/

/-- Claim C3: whenever some flattened target declares a dependency name
that resolves to nothing in the flattened registry, building the dependency
registry fails (it never returns `ok`), with a message naming a genuinely
missing dependency name and the target declaring it; and fabrication —
which runs before any command can be executed — fails with that same
message. -/
theorem C3 (y : Yake) (tname : String) (t : YakeTarget) (dname : String)
    (hmem : (tname, t) ∈ y.get_all_targets)
    (hdep : dname ∈ t.meta.depends.getD [])
    (hmiss : y.get_target_by_name dname = none) :
    ∃ tn t2 dn, (tn, t2) ∈ y.get_all_targets ∧ dn ∈ t2.meta.depends.getD [] ∧
      y.get_target_by_name dn = none ∧
      y.get_all_dependencies = Except.error
        ("Warning: Unknown dependency: " ++ dn ++ " in target: " ++ tn ++ ".") ∧
      (y.fabricated = false → y.fabricate = Except.error
        ("Warning: Unknown dependency: " ++ dn ++ " in target: " ++ tn ++ ".")) := by
  cases h : y.get_all_dependencies with
  | ok res =>
      rw [Yake.get_all_dependencies] at h
      obtain ⟨ds, hds⟩ :=
        allDepsLoop_ok_resolves y y.get_all_targets [] res h tname t hmem
      obtain ⟨e, he⟩ := resolveDeps_error_of_missing y tname _ dname hdep hmiss
      rw [hds] at he
      cases he
  | error e =>
      have h0 := h
      rw [Yake.get_all_dependencies] at h0
      obtain ⟨tn, t2, h1, h2⟩ := allDepsLoop_error_shape y _ [] e h0
      obtain ⟨dn, h3, h4, h5⟩ := resolveDeps_error_shape y tn _ e h2
      subst h5
      refine ⟨tn, t2, dn, h1, h3, h4, rfl, ?_⟩
      intro hnf
      rw [Yake.fabricate, hnf]
      simp only [Bool.false_eq_true, if_false]
      rw [h]

/-- Claim C3 (witness): the leaf declaring `depends: ["nope"]` makes the
dependency registry fail with the message naming `nope` and `leaf`. -/
theorem C3_witness :
    ∃ tn t2 dn, (tn, t2) ∈ nopeYake.get_all_targets ∧
      dn ∈ t2.meta.depends.getD [] ∧
      nopeYake.get_target_by_name dn = none ∧
      nopeYake.get_all_dependencies = Except.error
        ("Warning: Unknown dependency: " ++ dn ++ " in target: " ++ tn ++ ".") ∧
      (nopeYake.fabricated = false → nopeYake.fabricate = Except.error
        ("Warning: Unknown dependency: " ++ dn ++ " in target: " ++ tn ++ ".")) :=
  C3 nopeYake "leaf" nopeTarget "nope" (List.mem_singleton.mpr rfl)
    (List.mem_singleton.mpr rfl) rfl

/-! ### Claim C4 -/

theorem subTargetsLoop_cons_cmd (pfx : Option String) (target_name : String)
    (target : YakeTarget) (rest acc : List (String × YakeTarget))
    (h : target.meta.target_type = .cmd) :
    subTargetsLoop pfx ((target_name, target) :: rest) acc =
      subTargetsLoop pfx rest (alInsert acc (joinName pfx target_name) target) := by
  simp only [subTargetsLoop]
  rw [h, if_pos rfl]

theorem subTargetsLoop_cons_group (pfx : Option String) (target_name : String)
    (target : YakeTarget) (rest acc : List (String × YakeTarget))
    (h : target.meta.target_type = .group) :
    subTargetsLoop pfx ((target_name, target) :: rest) acc =
      subTargetsLoop pfx rest
        (alExtend acc (target.get_sub_targets (extendName pfx target_name))) := by
  simp only [subTargetsLoop]
  rw [h, if_neg (by decide)]

theorem allTargetsLoop_cons_some (target_name : String) (target : YakeTarget)
    (x : List (String × YakeTarget)) (rest acc : List (String × YakeTarget))
    (h : target.targets = some x) :
    allTargetsLoop ((target_name, target) :: rest) acc =
      allTargetsLoop rest
        (alExtend (alInsert acc target_name target)
          (target.get_sub_targets (some target_name))) := by
  simp only [allTargetsLoop, h]

/-- Claim C4: in a definition whose top-level entry is the group `g1`
containing the group `g2` containing the command leaf, the flattened
registry binds that leaf to exactly the key `g1 ++ "." ++ g2 ++ "." ++
leafname`, and to no other key. -/
theorem C4 (g1 g2 leaf : String) (m1 m2 mt : YakeTargetMeta)
    (tt : Option (List (String × YakeTarget)))
    (e1 e2 et x1 x2 xt : Option (List String)) (ym : YakeMeta)
    (yenv : Option (List String)) (fab : Bool)
    (cat : List (String × YakeTarget)) (cdep : List (String × List YakeTarget))
    (h1 : m1.target_type = .group) (h2 : m2.target_type = .group)
    (ht : mt.target_type = .cmd) :
    alLookup (Yake.get_all_targets ⟨ym, yenv,
        [(g1, YakeTarget.mk m1 (some [(g2, YakeTarget.mk m2
          (some [(leaf, YakeTarget.mk mt tt et xt)]) e2 x2)]) e1 x1)],
        fab, cat, cdep⟩) (g1 ++ "." ++ g2 ++ "." ++ leaf) =
      some (YakeTarget.mk mt tt et xt) ∧
    ∀ k, alLookup (Yake.get_all_targets ⟨ym, yenv,
        [(g1, YakeTarget.mk m1 (some [(g2, YakeTarget.mk m2
          (some [(leaf, YakeTarget.mk mt tt et xt)]) e2 x2)]) e1 x1)],
        fab, cat, cdep⟩) k = some (YakeTarget.mk mt tt et xt) →
      k = g1 ++ "." ++ g2 ++ "." ++ leaf := by
  have hdot : String.length "." = 1 := rfl
  have hne : g1 ≠ g1 ++ "." ++ g2 ++ "." ++ leaf := by
    intro hcon
    have hl := congrArg String.length hcon
    rw [String.length_append, String.length_append, String.length_append,
      String.length_append, hdot] at hl
    omega
  have hflat : Yake.get_all_targets ⟨ym, yenv,
      [(g1, YakeTarget.mk m1 (some [(g2, YakeTarget.mk m2
        (some [(leaf, YakeTarget.mk mt tt et xt)]) e2 x2)]) e1 x1)],
      fab, cat, cdep⟩ =
      [(g1, YakeTarget.mk m1 (some [(g2, YakeTarget.mk m2
        (some [(leaf, YakeTarget.mk mt tt et xt)]) e2 x2)]) e1 x1),
       (g1 ++ "." ++ g2 ++ "." ++ leaf, YakeTarget.mk mt tt et xt)] := by
    rw [Yake.get_all_targets]
    rw [allTargetsLoop_cons_some g1
      (YakeTarget.mk m1 (some [(g2, YakeTarget.mk m2
        (some [(leaf, YakeTarget.mk mt tt et xt)]) e2 x2)]) e1 x1)
      [(g2, YakeTarget.mk m2 (some [(leaf, YakeTarget.mk mt tt et xt)]) e2 x2)]
      [] [] rfl]
    rw [show (YakeTarget.mk m1 (some [(g2, YakeTarget.mk m2
        (some [(leaf, YakeTarget.mk mt tt et xt)]) e2 x2)]) e1 x1).get_sub_targets
        (some g1) = subTargetsLoop (some g1)
        [(g2, YakeTarget.mk m2 (some [(leaf, YakeTarget.mk mt tt et xt)]) e2 x2)] []
      from rfl]
    rw [subTargetsLoop_cons_group (some g1) g2
      (YakeTarget.mk m2 (some [(leaf, YakeTarget.mk mt tt et xt)]) e2 x2) [] [] h2]
    rw [show (YakeTarget.mk m2 (some [(leaf, YakeTarget.mk mt tt et xt)]) e2
        x2).get_sub_targets (extendName (some g1) g2) =
        subTargetsLoop (some (g1 ++ "." ++ g2)) [(leaf, YakeTarget.mk mt tt et xt)] []
      from rfl]
    rw [subTargetsLoop_cons_cmd (some (g1 ++ "." ++ g2)) leaf
      (YakeTarget.mk mt tt et xt) [] [] ht]
    simp only [subTargetsLoop, allTargetsLoop, joinName, alExtend, List.foldl]
    simp only [alInsert]
    rw [if_neg hne]
  rw [hflat]
  constructor
  · simp only [alLookup]
    rw [if_neg hne]
    simp
  · intro k hk
    simp only [alLookup] at hk
    by_cases hgk : g1 = k
    · rw [if_pos hgk] at hk
      injection hk with hG
      injection hG with hm _ _ _
      rw [hm, ht] at h1
      cases h1
    · rw [if_neg hgk] at hk
      by_cases hkk : g1 ++ "." ++ g2 ++ "." ++ leaf = k
      · exact hkk.symm
      · rw [if_neg hkk] at hk
        cases hk

/-- Claim C4 (witness): the concrete tree `g1 › g2 › leaf` flattens the
leaf to exactly the key `g1.g2.leaf`. -/
theorem C4_witness :
    alLookup (Yake.get_all_targets ⟨⟨"doc", "1.0.0"⟩, none,
        [("g1", YakeTarget.mk ⟨"", .group, none⟩ (some [("g2", YakeTarget.mk
          ⟨"", .group, none⟩ (some [("leaf", YakeTarget.mk ⟨"", .cmd, none⟩
          none none (some ["c"]))]) none none)]) none none)],
        false, [], []⟩) ("g1" ++ "." ++ "g2" ++ "." ++ "leaf") =
      some (YakeTarget.mk ⟨"", .cmd, none⟩ none none (some ["c"])) ∧
    ∀ k, alLookup (Yake.get_all_targets ⟨⟨"doc", "1.0.0"⟩, none,
        [("g1", YakeTarget.mk ⟨"", .group, none⟩ (some [("g2", YakeTarget.mk
          ⟨"", .group, none⟩ (some [("leaf", YakeTarget.mk ⟨"", .cmd, none⟩
          none none (some ["c"]))]) none none)]) none none)],
        false, [], []⟩) k =
        some (YakeTarget.mk ⟨"", .cmd, none⟩ none none (some ["c"])) →
      k = "g1" ++ "." ++ "g2" ++ "." ++ "leaf" :=
  C4 "g1" "g2" "leaf" _ _ _ _ _ _ _ _ _ _ _ _ _ _ _ rfl rfl rfl

/-! ### Claim C5 -/

/-- Claim C5: flattening inserts every top-level entry under its bare name
regardless of variant (the key is always bound in the flattened map); below
the top level only command-type nodes are ever emitted by
`get_sub_targets`; and the externally listed target names are exactly the
names whose entry in the `all_targets` registry is command-type (so a group
key such as `db` is never listed, while its leaf `db.migrate` is). -/
theorem C5 (y : Yake) :
    (∀ n t, (n, t) ∈ y.targets → ∃ t2, alLookup y.get_all_targets n = some t2) ∧
    (∀ (u : YakeTarget) (pfx : Option String) (k : String) (v : YakeTarget),
      (k, v) ∈ u.get_sub_targets pfx → v.meta.target_type = .cmd) ∧
    (∀ m, m ∈ y.get_target_names ↔
      ∃ v, (m, v) ∈ y.all_targets ∧ v.meta.target_type = .cmd) := by
  refine ⟨?_, ?_, ?_⟩
  · intro n t h
    have h2 := get_target_by_name_isSome_of_mem_targets y n t h
    rwa [Yake.get_target_by_name] at h2
  · intro u pfx k v h
    exact get_sub_targets_cmd u pfx k v h
  · intro m
    exact mem_namesLoop y.all_targets m

/-- Claim C5 (witness): in the db.migrate definition, the top-level group
key `db` is bound in the flattened map, while the name listing relation
holds at `db.migrate`. -/
theorem C5_witness :
    (∃ t2, alLookup dbYake.get_all_targets "db" = some t2) ∧
    ("db.migrate" ∈ dbYake.get_target_names ↔
      ∃ v, ("db.migrate", v) ∈ dbYake.all_targets ∧
        v.meta.target_type = .cmd) :=
  ⟨(C5 dbYake).1 "db" dbGroup (List.mem_singleton.mpr rfl),
    (C5 dbYake).2.2 "db.migrate"⟩

/-! ### Claim C6 -/

/-- Claim C6 (counterexample): `execute "missing"` returns the same failure
value `Err "Unknown target: missing"` on two definitions with different
command-type name sets (`["t1"]` versus `["t2"]`), so the failure returned
by `execute` cannot list the names actually defined — it names only the
requested target. -/
theorem C6_counterexample :
    c6YakeA.execute spawnAll "missing" =
      ([], ExecOutcome.err "Unknown target: missing") ∧
    c6YakeB.execute spawnAll "missing" =
      ([], ExecOutcome.err "Unknown target: missing") ∧
    c6YakeA.get_target_names = ["t1"] ∧
    c6YakeB.get_target_names = ["t2"] ∧
    c6YakeA.get_target_names ≠ c6YakeB.get_target_names :=
  ⟨rfl, rfl, rfl, rfl, by decide⟩

/-- Claim C6 (amended): for every name not among the listed command-type
target names, `execute` fails with the message `"Unknown target: <name>"`
(which does not include the defined names); the full valid-name list is
instead returned by `has_target_name`, which the CLI queries before calling
`execute`. -/
theorem C6_amended (y : Yake) (name : String) (spawn : String → Option Int)
    (h : name ∉ y.get_target_names) :
    y.execute spawn name = ([], ExecOutcome.err ("Unknown target: " ++ name)) ∧
    y.has_target_name name = Except.error y.get_target_names :=
  ⟨execute_unknown spawn y name h,
    (has_target_name_error_iff y name _).mpr ⟨h, rfl⟩⟩

/-- Claim C6 (witness): on the fabricated definition with single target
`t1`, `execute "missing"` yields the unknown-target error and
`has_target_name` returns the name list. -/
theorem C6_witness :
    c6YakeA.execute spawnAll "missing" =
      ([], ExecOutcome.err ("Unknown target: " ++ "missing")) ∧
    c6YakeA.has_target_name "missing" =
      Except.error c6YakeA.get_target_names :=
  C6_amended c6YakeA "missing" spawnAll (by decide)

/-! ### Claim C7 -/

/-- Claim C7: `has_target_name` succeeds iff the name is present in the
command-type name listing, and on failure the returned name list equals
that listing. -/
theorem C7 (y : Yake) (name : String) :
    (y.has_target_name name = Except.ok () ↔ name ∈ y.get_target_names) ∧
    ∀ l, y.has_target_name name = Except.error l → l = y.get_target_names := by
  refine ⟨has_target_name_ok_iff y name, ?_⟩
  intro l hl
  exact ((has_target_name_error_iff y name l).mp hl).2

/-- Claim C7 (witness): `build` is accepted on the fabricated build/clean
definition. -/
theorem C7_witness : "build" ∈ buildYake.get_target_names :=
  (C7 buildYake "build").1.mp rfl

/-! ### Claim C8 -/

/-- Claim C8: dependency resolution is deterministic/idempotent — a second
run on the same definition yields an equal registry — and for every entry
`(n, t)` of the flattened registry the result binds `n` to exactly the
resolution of `t`'s declared dependency list: empty when no dependencies
are declared, of the same length as the declaration list, and with the
`i`-th resolved target being the flattened-registry lookup of the `i`-th
declared name (declaration order preserved). -/
theorem C8 (y : Yake) (reg : List (String × List YakeTarget))
    (h : y.get_all_dependencies = Except.ok reg) (n : String) (t : YakeTarget)
    (hmem : (n, t) ∈ y.get_all_targets) :
    (∀ reg2, y.get_all_dependencies = Except.ok reg2 → reg2 = reg) ∧
    ∃ ds, alLookup reg n = some ds ∧
      resolveDeps y n (t.meta.depends.getD []) = Except.ok ds ∧
      (t.meta.depends = none → ds = []) ∧
      ds.length = (t.meta.depends.getD []).length ∧
      ∀ i (hi : i < (t.meta.depends.getD []).length) (hj : i < ds.length),
        y.get_target_by_name ((t.meta.depends.getD []).get ⟨i, hi⟩) =
          some (ds.get ⟨i, hj⟩) := by
  constructor
  · intro reg2 h2
    rw [h] at h2
    injection h2 with h3
    exact h3.symm
  · have h0 := h
    rw [Yake.get_all_dependencies] at h0
    obtain ⟨ds, hds, hres⟩ := allDepsLoop_lookup_of_ok y y.get_all_targets [] reg
      (nodup_keys_get_all_targets y) h0 n t hmem
    obtain ⟨hlen, hidx⟩ := resolveDeps_ok_shape y n _ ds hres
    refine ⟨ds, hds, hres, ?_, hlen, hidx⟩
    intro hnone
    rw [hnone] at hres
    have h4 : (Except.ok [] : Except String (List YakeTarget)) = Except.ok ds :=
      hres
    injection h4 with h5
    exact h5.symm

/-- Claim C8 (witness): on the build/clean definition the registry binds
`build` to the resolution of its declared list `["clean"]`. -/
theorem C8_witness :
    (∀ reg2, buildYakeRaw.get_all_dependencies = Except.ok reg2 →
      reg2 = [("build", [cleanTarget]), ("clean", [])]) ∧
    ∃ ds, alLookup [("build", [cleanTarget]), ("clean", [])] "build" = some ds ∧
      resolveDeps buildYakeRaw "build" (buildTarget.meta.depends.getD []) =
        Except.ok ds ∧
      (buildTarget.meta.depends = none → ds = []) ∧
      ds.length = (buildTarget.meta.depends.getD []).length ∧
      ∀ i (hi : i < (buildTarget.meta.depends.getD []).length)
        (hj : i < ds.length),
        buildYakeRaw.get_target_by_name
            ((buildTarget.meta.depends.getD []).get ⟨i, hi⟩) =
          some (ds.get ⟨i, hj⟩) :=
  C8 buildYakeRaw [("build", [cleanTarget]), ("clean", [])] rfl "build"
    buildTarget (List.mem_cons_self _ _)

/-! ### Claim C9 -/

/-- Claim C9: a declared dependency name that is bound in the flattened map
— including a top-level group, since every top-level entry is bound there —
resolves successfully to that target, and running a target whose command
list is absent is a no-op (no command invoked, no failure), so a group
dependency contributes no commands at execution time. -/
theorem C9 (y : Yake) (tname dname : String) (G : YakeTarget)
    (spawn : String → Option Int)
    (hg : y.get_target_by_name dname = some G) (hexec : G.exec = none) :
    resolveDeps y tname [dname] = Except.ok [G] ∧
    run_target spawn G = ([], none) ∧
    ∀ n t2, (n, t2) ∈ y.targets → ∃ t3, y.get_target_by_name n = some t3 := by
  refine ⟨?_, ?_, fun n t2 h => get_target_by_name_isSome_of_mem_targets y n t2 h⟩
  · simp [resolveDeps, hg]
  · rw [run_target, hexec]

/-- Claim C9 (witness): in the db.migrate definition, the dependency name
`db` (a top-level group with no `exec`) resolves to the group target and
running it invokes nothing. -/
theorem C9_witness :
    resolveDeps dbYake "db.migrate" ["db"] = Except.ok [dbGroup] ∧
    run_target spawnAll dbGroup = ([], none) ∧
    ∀ n t2, (n, t2) ∈ dbYake.targets →
      ∃ t3, dbYake.get_target_by_name n = some t3 :=
  C9 dbYake "db.migrate" "db" dbGroup spawnAll rfl rfl

/-! ### Claim C10 -/

/-- Claim C10: on a Yake fabricated from an unfabricated definition, every
name accepted by `has_target_name` makes both internal lookups of `execute`
succeed (the recomputed flattened map and the cached dependency registry),
so `execute` can only panic through a spawn failure naming a command —
never on the name-lookup `unwrap`s; and on any Yake whose `all_targets`
cache is empty (the unfabricated state), `execute` returns the
unknown-target error for every name. -/
theorem C10 (y0 y : Yake) (name : String)
    (hnf : y0.fabricated = false) (hfab : y0.fabricate = Except.ok y)
    (hok : y.has_target_name name = Except.ok ()) :
    (∃ t, y.get_target_by_name name = some t) ∧
    (∃ ds, y.get_dependencies_by_name name = some ds) ∧
    (∀ (spawn : String → Option Int) (m : String),
      (y.execute spawn name).2 = ExecOutcome.panicked m →
      ∃ c, spawn c = none ∧
        m = "failed to execute command \"" ++ c ++ "\"") ∧
    (∀ z : Yake, z.all_targets = [] →
      ∀ nm (spawn : String → Option Int),
      z.execute spawn nm = ([], ExecOutcome.err ("Unknown target: " ++ nm))) := by
  obtain ⟨deps, hdeps, hy⟩ := fabricate_shape y0 y hnf hfab
  have hat : y.all_targets = y0.get_all_targets := by rw [hy]
  have hdep : y.dependencies = deps := by rw [hy]
  have htg : y.targets = y0.targets := by rw [hy]
  have hflat : y.get_all_targets = y0.get_all_targets := by
    rw [Yake.get_all_targets, Yake.get_all_targets, htg]
  have hmemname : name ∈ y.get_target_names :=
    (has_target_name_ok_iff y name).mp hok
  obtain ⟨t, htmem, htc⟩ := (mem_namesLoop y.all_targets name).mp hmemname
  rw [hat] at htmem
  have h1 : ∃ t2, y.get_target_by_name name = some t2 := by
    rw [Yake.get_target_by_name, hflat]
    exact Option.isSome_iff_exists.mp (alLookup_isSome_of_mem _ name t htmem)
  have h2 : ∃ ds2, y.get_dependencies_by_name name = some ds2 := by
    rw [Yake.get_dependencies_by_name, hdep]
    have h0 := hdeps
    rw [Yake.get_all_dependencies] at h0
    exact Option.isSome_iff_exists.mp
      (allDepsLoop_lookup_isSome_of_mem y0 y0.get_all_targets [] deps h0
        name t htmem)
  obtain ⟨t2, ht2⟩ := h1
  obtain ⟨ds2, hds2⟩ := h2
  refine ⟨⟨t2, ht2⟩, ⟨ds2, hds2⟩, ?_, ?_⟩
  · intro spawn m hpan
    have hex := execute_eq_runCommands spawn y name t2 ds2 hok ht2 hds2
    rw [hex] at hpan
    cases hrc : (runCommands spawn (plannedCommands ds2 t2)).2 with
    | none =>
        rw [hrc] at hpan
        simp [outcomeOfRun] at hpan
    | some e =>
        rw [hrc] at hpan
        simp only [outcomeOfRun] at hpan
        obtain ⟨pre, c, post, _, _, _, hcnone, hemsg⟩ :=
          runCommands_err_shape spawn _ e hrc
        refine ⟨c, hcnone, ?_⟩
        have hm : e = m := by
          have hp2 : ExecOutcome.panicked e = ExecOutcome.panicked m := hpan
          injection hp2
        rw [← hm, hemsg]
  · intro z hz nm spawn
    have hn : z.get_target_names = [] := by
      rw [Yake.get_target_names, hz]
      rfl
    exact execute_unknown spawn z nm (by rw [hn]; simp)

/-- Claim C10 (witness): fabricating the build/clean definition and
executing the accepted name `build` exercises all four conjuncts. -/
theorem C10_witness :
    (∃ t, buildYake.get_target_by_name "build" = some t) ∧
    (∃ ds, buildYake.get_dependencies_by_name "build" = some ds) ∧
    (∀ (spawn : String → Option Int) (m : String),
      (buildYake.execute spawn "build").2 = ExecOutcome.panicked m →
      ∃ c, spawn c = none ∧
        m = "failed to execute command \"" ++ c ++ "\"") ∧
    (∀ z : Yake, z.all_targets = [] →
      ∀ nm (spawn : String → Option Int),
      z.execute spawn nm = ([], ExecOutcome.err ("Unknown target: " ++ nm))) :=
  C10 buildYakeRaw buildYake "build" rfl rfl rfl
